import Mathlib

/-!
Shallow embedding of the transposition engine of `src/augmentation.py`
(class `TransposeAugmenter`): vocabulary classification, optimal-centering
computation, per-token transposition and batch augmentation.

The vocabulary is a Python dict `token string -> integer id`, modelled as an
association list in insertion order; dict lookup is the first entry with the
key, and building `token_to_info` lets a later entry with the same id
overwrite an earlier one (lookup through the reversed list).
-/

/-- Python `str.split('_')` on the character list: split on every underscore,
keeping empty segments, as Python does. -/
def splitAux : List Char → List Char → List (List Char)
  | [], acc => [acc.reverse]
  | c :: cs, acc =>
    if c = '_' then acc.reverse :: splitAux cs []
    else splitAux cs (c :: acc)

/-- Python `token.split('_')` as a list of strings. -/
def splitOnUnderscore (s : String) : List String :=
  (splitAux s.data []).map (fun cs => String.mk cs)

/-- Python `s.startswith(p)`: `p`'s characters are a prefix of `s`'s. -/
def startswith (s p : String) : Bool :=
  p.data.isPrefixOf s.data

/-- Digit run of Python `int(...)`: all characters must be decimal digits. -/
def parseDigitsAux : List Char → Nat → Option Nat
  | [], acc => some acc
  | c :: cs, acc =>
    if c.isDigit then parseDigitsAux cs (acc * 10 + (c.toNat - 48))
    else none

/-- Python `int(s)` restricted to the optional-sign decimal forms; `none`
models the `ValueError` Python raises on a malformed suffix. -/
def parseInt (s : String) : Option Int :=
  match s.data with
  | [] => none
  | '-' :: cs =>
    match cs with
    | [] => none
    | _ => (parseDigitsAux cs 0).map (fun n => -(n : Int))
  | cs => (parseDigitsAux cs 0).map (fun n => (n : Int))

/-- The `(category, value)` record stored in `token_to_info`
(`'pitch'`, `'drum_pitch'`, `'chord'`, `'other'`). -/
inductive TokenInfo where
  | pitch (value : Int)
  | drumPitch (value : Int)
  | chord (quality : String)
  | other
deriving DecidableEq, Repr

/-- The vocabulary: token string to id, in insertion order. -/
abbrev Vocab := List (String × Int)

/-- The classification of one token string, from the `__init__` loop:
`Pitch_` (and not `PitchDrum_`) parses its numeric suffix as a pitch,
`PitchDrum_` as a drum pitch, `Chord_` keeps the quality segment, anything
else is `other`. `none` models the exception Python would raise while
building the table (unparsable suffix). -/
def classify (token : String) : Option TokenInfo :=
  if startswith token "Pitch_" && !(startswith token "PitchDrum_") then
    match (splitOnUnderscore token).get? 1 with
    | none => none
    | some seg =>
      match parseInt seg with
      | none => none
      | some n => some (TokenInfo.pitch n)
  else if startswith token "PitchDrum_" then
    match (splitOnUnderscore token).get? 1 with
    | none => none
    | some seg =>
      match parseInt seg with
      | none => none
      | some n => some (TokenInfo.drumPitch n)
  else if startswith token "Chord_" then
    match (splitOnUnderscore token).get? 1 with
    | none => none
    | some seg => some (TokenInfo.chord seg)
  else some TokenInfo.other

/-- Dict lookup `self.vocab[name]` / `name in self.vocab`. -/
def vocab_get (vocab : Vocab) (name : String) : Option Int :=
  match vocab.find? (fun p => p.1 == name) with
  | some p => some p.2
  | none => none

/-- `self.token_to_info[id]`: the classification of the last vocabulary entry
carrying this id (later entries of the build loop overwrite earlier ones). -/
def token_to_info (vocab : Vocab) (id : Int) : Option TokenInfo :=
  match vocab.reverse.find? (fun p => p.2 == id) with
  | some p => classify p.1
  | none => none

/-- `self.min_pitch = 21`. -/
def min_pitch : Int := 21

/-- `self.max_pitch = 109`. -/
def max_pitch : Int := 109

/-- `self.mid_pitch = (self.min_pitch + self.max_pitch) // 2`. -/
def mid_pitch : Int := Int.fdiv (min_pitch + max_pitch) 2

/-- The pitch values collected by `find_optimal_transpose`'s first loop:
values of tokens classified as category `pitch`. -/
def collect_pitches (vocab : Vocab) (tokens : List Int) : List Int :=
  tokens.filterMap (fun t =>
    match token_to_info vocab t with
    | some (TokenInfo.pitch v) => some v
    | _ => none)

/-- `find_optimal_transpose`: 0 with no pitches; otherwise centre the range
`[current_min, current_max]` on `mid_pitch`, clamping the low bound first
(`//` is Python floor division, `Int.fdiv`). -/
def find_optimal_transpose (vocab : Vocab) (tokens : List Int) : Int :=
  match collect_pitches vocab tokens with
  | [] => 0
  | p :: ps =>
    let current_min := ps.foldl min p
    let current_max := ps.foldl max p
    let current_center := Int.fdiv (current_min + current_max) 2
    let optimal := mid_pitch - current_center
    if current_min + optimal < min_pitch then min_pitch - current_min
    else if current_max + optimal > max_pitch then max_pitch - current_max
    else optimal

/-- One iteration of the `transpose_tokens` loop: a pitch token is range
checked and looked up as `f"Pitch_{new_pitch}"`, every other token (drum
pitch, chord, other, unknown id) passes through unchanged. -/
def transpose_token (vocab : Vocab) (steps : Int) (token : Int) : Option Int :=
  match token_to_info vocab token with
  | some (TokenInfo.pitch v) =>
    let new_pitch := v + steps
    if new_pitch < min_pitch ∨ new_pitch > max_pitch then none
    else
      match vocab_get vocab ("Pitch_" ++ toString new_pitch) with
      | some id => some id
      | none => none
  | some (TokenInfo.drumPitch _) => some token
  | some (TokenInfo.chord _) => some token
  | some TokenInfo.other => some token
  | none => some token

/-- The `transpose_tokens` loop over the sequence: the first failing token
makes the whole call return `None`, discarding the partial `result`. -/
def transposeList (vocab : Vocab) (steps : Int) : List Int → Option (List Int)
  | [] => some []
  | t :: ts =>
    match transpose_token vocab steps t with
    | none => none
    | some t' => (transposeList vocab steps ts).map (fun r => t' :: r)

/-- `transpose_tokens(tokens, transpose_steps)`: a copy at steps 0, the
all-or-nothing per-token loop otherwise. -/
def transpose_tokens (vocab : Vocab) (tokens : List Int) (steps : Int) :
    Option (List Int) :=
  if steps = 0 then some tokens
  else transposeList vocab steps tokens

/-- `self.transpose_values = list(range(lo, hi + 1))`. -/
def transpose_values (lo hi : Int) : List Int :=
  (List.range (hi + 1 - lo).toNat).map (fun i => lo + Int.ofNat i)

/-- `augment_sequence`: the optimal shift is computed once, each configured
offset `d` is tried at `actual = optimal + d`, successes are appended as
`(actual, transposed)`, failures are skipped. -/
def augment_sequence (vocab : Vocab) (lo hi : Int) (tokens : List Int) :
    List (Int × List Int) :=
  let optimal := find_optimal_transpose vocab tokens
  (transpose_values lo hi).filterMap (fun d =>
    match transpose_tokens vocab tokens (optimal + d) with
    | some r => some (optimal + d, r)
    | none => none)

/-- Spec invariant: ids of the vocabulary are unique. -/
def UniqueIds (vocab : Vocab) : Prop :=
  vocab.Pairwise (fun p q => p.2 ≠ q.2)

instance : DecidablePred UniqueIds := fun _ => List.instDecidablePairwise _

/-- The pitch value of a classification, if it is a pitch. -/
def pitchOf : Option TokenInfo → Option Int
  | some (TokenInfo.pitch v) => some v
  | _ => none

/-- Spec invariant: each pitch value corresponds to at most one id — no two
distinct vocabulary entries classify to the same pitch value. -/
def PitchValueInjective (vocab : Vocab) : Prop :=
  vocab.Pairwise (fun p q =>
    pitchOf (classify p.1) = none ∨ pitchOf (classify p.1) ≠ pitchOf (classify q.1))

instance : DecidablePred PitchValueInjective := fun _ => List.instDecidablePairwise _

lemma pairwise_mem_eq_or {α : Type _} {R : α → α → Prop} :
    ∀ {l : List α}, l.Pairwise R → ∀ {a b : α}, a ∈ l → b ∈ l →
      a = b ∨ R a b ∨ R b a := by
  intro l hl
  induction hl with
  | nil => intro a b ha _; cases ha
  | cons hc _ ih =>
    intro a b ha hb
    rcases List.mem_cons.mp ha with rfl | ha' <;>
      rcases List.mem_cons.mp hb with rfl | hb'
    · exact Or.inl rfl
    · exact Or.inr (Or.inl (hc _ hb'))
    · exact Or.inr (Or.inr (hc _ ha'))
    · exact ih ha' hb'

lemma unique_ids_mem {vocab : Vocab} (hu : UniqueIds vocab) {p q : String × Int}
    (hp : p ∈ vocab) (hq : q ∈ vocab) (h : p.2 = q.2) : p = q := by
  rcases pairwise_mem_eq_or hu hp hq with h1 | h1 | h1
  · exact h1
  · exact absurd h h1
  · exact absurd h.symm h1

lemma token_to_info_eq_some {vocab : Vocab} {i : Int} {info : TokenInfo}
    (h : token_to_info vocab i = some info) :
    ∃ p ∈ vocab, p.2 = i ∧ classify p.1 = some info := by
  unfold token_to_info at h
  cases hf : vocab.reverse.find? (fun p => p.2 == i) with
  | none => rw [hf] at h; cases h
  | some p =>
    rw [hf] at h
    refine ⟨p, List.mem_reverse.mp (List.mem_of_find?_eq_some hf), ?_, h⟩
    simpa using List.find?_some hf

lemma token_info_of_get {vocab : Vocab} {name : String} {id : Int}
    (hu : UniqueIds vocab) (h : vocab_get vocab name = some id) :
    token_to_info vocab id = classify name := by
  unfold vocab_get at h
  cases hf : vocab.find? (fun p => p.1 == name) with
  | none => rw [hf] at h; cases h
  | some p =>
    rw [hf] at h
    have hid : p.2 = id := Option.some.inj h
    have hname : p.1 = name := by simpa using List.find?_some hf
    have hmem : p ∈ vocab := List.mem_of_find?_eq_some hf
    have hsome : (vocab.reverse.find? (fun q => q.2 == id)).isSome := by
      rw [List.find?_isSome]
      exact ⟨p, List.mem_reverse.mpr hmem, by simp [hid]⟩
    obtain ⟨q, hq⟩ := Option.isSome_iff_exists.mp hsome
    have hqid : q.2 = id := by simpa using List.find?_some hq
    have hqmem : q ∈ vocab := List.mem_reverse.mp (List.mem_of_find?_eq_some hq)
    have hqp : q = p := unique_ids_mem hu hqmem hmem (by rw [hqid, hid])
    unfold token_to_info
    rw [hq, hqp]
    exact congrArg classify hname

lemma pitch_inj_mem {vocab : Vocab} (hinj : PitchValueInjective vocab)
    {p q : String × Int} {v : Int} (hpm : p ∈ vocab) (hqm : q ∈ vocab)
    (h1 : classify p.1 = some (TokenInfo.pitch v))
    (h2 : classify q.1 = some (TokenInfo.pitch v)) : p = q := by
  rcases pairwise_mem_eq_or hinj hpm hqm with h | h | h
  · exact h
  · rcases h with h | h <;> simp [pitchOf, h1, h2] at h
  · rcases h with h | h <;> simp [pitchOf, h1, h2] at h

lemma token_info_pitch_inj {vocab : Vocab} (hu : UniqueIds vocab)
    (hinj : PitchValueInjective vocab) {i j v : Int}
    (h1 : token_to_info vocab i = some (TokenInfo.pitch v))
    (h2 : token_to_info vocab j = some (TokenInfo.pitch v)) : i = j := by
  obtain ⟨p, hpm, hpi, hpc⟩ := token_to_info_eq_some h1
  obtain ⟨q, hqm, hqj, hqc⟩ := token_to_info_eq_some h2
  rw [← hpi, ← hqj, pitch_inj_mem hinj hpm hqm hpc hqc]

set_option maxHeartbeats 1000000 in
lemma classify_pitch_str (n : Int) (h1 : 21 ≤ n) (h2 : n ≤ 109) :
    classify ("Pitch_" ++ toString n) = some (TokenInfo.pitch n) := by
  interval_cases n <;> decide

lemma transpose_token_roundtrip {vocab : Vocab} {k : Int} {t t' t'' : Int}
    (hu : UniqueIds vocab) (hinj : PitchValueInjective vocab)
    (h1 : transpose_token vocab k t = some t')
    (h2 : transpose_token vocab (-k) t' = some t'') : t'' = t := by
  unfold transpose_token at h1
  cases hinfo : token_to_info vocab t with
  | none =>
    rw [hinfo] at h1
    have ht : t' = t := (Option.some.inj h1).symm
    subst ht
    unfold transpose_token at h2
    rw [hinfo] at h2
    exact (Option.some.inj h2).symm
  | some info =>
    cases info with
    | drumPitch v =>
      rw [hinfo] at h1
      have ht : t' = t := (Option.some.inj h1).symm
      subst ht
      unfold transpose_token at h2
      rw [hinfo] at h2
      exact (Option.some.inj h2).symm
    | chord c =>
      rw [hinfo] at h1
      have ht : t' = t := (Option.some.inj h1).symm
      subst ht
      unfold transpose_token at h2
      rw [hinfo] at h2
      exact (Option.some.inj h2).symm
    | other =>
      rw [hinfo] at h1
      have ht : t' = t := (Option.some.inj h1).symm
      subst ht
      unfold transpose_token at h2
      rw [hinfo] at h2
      exact (Option.some.inj h2).symm
    | pitch v =>
      rw [hinfo] at h1
      simp only at h1
      split at h1
      · cases h1
      · rename_i hrange
        have hlo : (21 : Int) ≤ v + k := by
          simp only [min_pitch, max_pitch] at hrange; omega
        have hhi : v + k ≤ 109 := by
          simp only [min_pitch, max_pitch] at hrange; omega
        cases hlook : vocab_get vocab ("Pitch_" ++ toString (v + k)) with
        | none => rw [hlook] at h1; cases h1
        | some id =>
          rw [hlook] at h1
          have ht' : t' = id := (Option.some.inj h1).symm
          subst ht'
          have hinfo' : token_to_info vocab t' = some (TokenInfo.pitch (v + k)) := by
            rw [token_info_of_get hu hlook]
            exact classify_pitch_str (v + k) hlo hhi
          unfold transpose_token at h2
          rw [hinfo'] at h2
          simp only at h2
          rw [show v + k + -k = v from by ring] at h2
          split at h2
          · cases h2
          · rename_i hrange2
            have hlo2 : (21 : Int) ≤ v := by
              simp only [min_pitch, max_pitch] at hrange2; omega
            have hhi2 : v ≤ 109 := by
              simp only [min_pitch, max_pitch] at hrange2; omega
            cases hlook2 : vocab_get vocab ("Pitch_" ++ toString v) with
            | none => rw [hlook2] at h2; cases h2
            | some id2 =>
              rw [hlook2] at h2
              have ht'' : t'' = id2 := (Option.some.inj h2).symm
              subst ht''
              have hinfo'' : token_to_info vocab t'' = some (TokenInfo.pitch v) := by
                rw [token_info_of_get hu hlook2]
                exact classify_pitch_str v hlo2 hhi2
              exact token_info_pitch_inj hu hinj hinfo'' hinfo

lemma transposeList_roundtrip {vocab : Vocab} {k : Int}
    (hu : UniqueIds vocab) (hinj : PitchValueInjective vocab) :
    ∀ {seq r r2 : List Int}, transposeList vocab k seq = some r →
      transposeList vocab (-k) r = some r2 → r2 = seq := by
  intro seq
  induction seq with
  | nil =>
    intro r r2 h1 h2
    have hr : r = [] := (Option.some.inj h1).symm
    subst hr
    exact (Option.some.inj h2).symm
  | cons t ts ih =>
    intro r r2 h1 h2
    unfold transposeList at h1
    cases ht : transpose_token vocab k t with
    | none => rw [ht] at h1; cases h1
    | some t' =>
      rw [ht] at h1
      cases hts : transposeList vocab k ts with
      | none => rw [hts] at h1; cases h1
      | some ts' =>
        rw [hts] at h1
        have hr : r = t' :: ts' := (Option.some.inj h1).symm
        subst hr
        unfold transposeList at h2
        cases ht' : transpose_token vocab (-k) t' with
        | none => rw [ht'] at h2; cases h2
        | some t'' =>
          rw [ht'] at h2
          cases hts' : transposeList vocab (-k) ts' with
          | none => rw [hts'] at h2; cases h2
          | some ts'' =>
            rw [hts'] at h2
            have hr2 : r2 = t'' :: ts'' := (Option.some.inj h2).symm
            subst hr2
            rw [transpose_token_roundtrip hu hinj ht ht',
              ih hts hts']

/-- Claim C4: round trip — whenever `transpose_tokens(seq, k)` succeeds with
result `r` and `transpose_tokens(r, -k)` also succeeds, the second result is
`seq` again, under the vocabulary invariants that ids are unique and that
each pitch value corresponds to at most one id. -/
theorem claim_c4_round_trip (vocab : Vocab) (seq : List Int) (k : Int)
    (r r2 : List Int)
    (hu : UniqueIds vocab) (hinj : PitchValueInjective vocab)
    (h1 : transpose_tokens vocab seq k = some r)
    (h2 : transpose_tokens vocab r (-k) = some r2) : r2 = seq := by
  by_cases hk : k = 0
  · subst hk
    unfold transpose_tokens at h1 h2
    rw [if_pos rfl] at h1
    rw [if_pos (by ring)] at h2
    have hr : r = seq := (Option.some.inj h1).symm
    rw [← hr, Option.some.inj h2]
  · unfold transpose_tokens at h1 h2
    rw [if_neg hk] at h1
    rw [if_neg (neg_ne_zero.mpr hk)] at h2
    exact transposeList_roundtrip hu hinj h1 h2

/-- Concrete vocabulary used by the witnesses: unique ids, one id per pitch
value, with boundary pitches 21 and 109 present. -/
def demoVocab : Vocab :=
  [("Pitch_21", 0), ("Pitch_22", 1), ("Pitch_60", 2), ("Pitch_61", 3),
   ("Pitch_65", 4), ("Pitch_108", 5), ("Pitch_109", 6), ("PitchDrum_36", 7),
   ("Chord_maj", 8), ("Bar_None", 9)]

/-- Witness for C4: transposing `Pitch_60` up one semitone and back recovers
the original sequence. -/
theorem claim_c4_concrete :
    UniqueIds demoVocab ∧ PitchValueInjective demoVocab ∧
    transpose_tokens demoVocab [2] 1 = some [3] ∧
    transpose_tokens demoVocab [3] (-1) = some [2] ∧ ([2] : List Int) = [2] :=
  ⟨by decide, by decide, by decide, by decide,
    claim_c4_round_trip demoVocab [2] 1 [3] [2] (by decide) (by decide)
      (by decide) (by decide)⟩

lemma transpose_token_eq_none_iff {vocab : Vocab} {steps t : Int} :
    transpose_token vocab steps t = none ↔
      ∃ v, token_to_info vocab t = some (TokenInfo.pitch v) ∧
        (v + steps < min_pitch ∨ v + steps > max_pitch ∨
          vocab_get vocab ("Pitch_" ++ toString (v + steps)) = none) := by
  unfold transpose_token
  cases hinfo : token_to_info vocab t with
  | none => simp
  | some info =>
    cases info with
    | drumPitch w => simp
    | chord c => simp
    | other => simp
    | pitch v =>
      simp only [Option.some.injEq, TokenInfo.pitch.injEq]
      constructor
      · intro h
        refine ⟨v, rfl, ?_⟩
        by_cases hrange : v + steps < min_pitch ∨ v + steps > max_pitch
        · tauto
        · rw [if_neg hrange] at h
          cases hlook : vocab_get vocab ("Pitch_" ++ toString (v + steps)) with
          | none => tauto
          | some id => rw [hlook] at h; cases h
      · rintro ⟨v', rfl, hd⟩
        rcases hd with hd | hd | hd
        · rw [if_pos (Or.inl hd)]
        · rw [if_pos (Or.inr hd)]
        · by_cases hrange : v + steps < min_pitch ∨ v + steps > max_pitch
          · rw [if_pos hrange]
          · rw [if_neg hrange, hd]

lemma transposeList_eq_none_iff {vocab : Vocab} {steps : Int} {l : List Int} :
    transposeList vocab steps l = none ↔
      ∃ t ∈ l, transpose_token vocab steps t = none := by
  induction l with
  | nil => simp [transposeList]
  | cons t ts ih =>
    unfold transposeList
    cases ht : transpose_token vocab steps t with
    | none => simp [ht]
    | some t' => simp [ht, Option.map_eq_none', ih]

/-- Claim C1: for nonzero steps, `transpose_tokens` fails (returning the
failure value, with no partial output) exactly when some token classified as
pitch has `value + steps` outside `[min_pitch, max_pitch] = [21, 109]` or the
string `Pitch_{value+steps}` is absent from the vocabulary. -/
theorem claim_c1_transpose_failure_iff (vocab : Vocab) (tokens : List Int)
    (steps : Int) (h : steps ≠ 0) :
    transpose_tokens vocab tokens steps = none ↔
      ∃ t ∈ tokens, ∃ v, token_to_info vocab t = some (TokenInfo.pitch v) ∧
        (v + steps < min_pitch ∨ v + steps > max_pitch ∨
          vocab_get vocab ("Pitch_" ++ toString (v + steps)) = none) := by
  unfold transpose_tokens
  rw [if_neg h, transposeList_eq_none_iff]
  constructor
  · rintro ⟨t, ht, hn⟩
    exact ⟨t, ht, transpose_token_eq_none_iff.mp hn⟩
  · rintro ⟨t, ht, hv⟩
    exact ⟨t, ht, transpose_token_eq_none_iff.mpr hv⟩

/-- Witness for C1: the spec's boundary cases — a pitch token at 21 with
steps −1 fails, and one at 109 with steps +1 fails. -/
theorem claim_c1_boundary :
    (-1 : Int) ≠ 0 ∧ (1 : Int) ≠ 0 ∧
    transpose_tokens demoVocab [0] (-1) = none ∧
    transpose_tokens demoVocab [6] 1 = none :=
  ⟨by decide, by decide,
    (claim_c1_transpose_failure_iff demoVocab [0] (-1) (by decide)).mpr
      ⟨0, by decide, 21, by decide, Or.inl (by decide)⟩,
    (claim_c1_transpose_failure_iff demoVocab [6] 1 (by decide)).mpr
      ⟨6, by decide, 109, by decide, Or.inr (Or.inl (by decide))⟩⟩

/-- Claim C8: identity law — `transpose_tokens(seq, 0)` always succeeds and
returns a sequence equal to `seq` (the code returns `tokens.copy()`). -/
theorem claim_c8_identity (vocab : Vocab) (tokens : List Int) :
    transpose_tokens vocab tokens 0 = some tokens := by
  unfold transpose_tokens
  rw [if_pos rfl]

/-- A vocabulary whose only pitch token lies outside `[21, 109]`. -/
def oorVocab : Vocab := [("Pitch_200", 0)]

/-- Claim C9 (implicit): at steps 0 no range or vocabulary validation runs —
any sequence containing an out-of-range pitch token still succeeds at steps 0
with an equal copy, and in particular the sequence `[Pitch_200]`, whose pitch
value 200 exceeds `max_pitch`, fails at every nonzero steps yet succeeds
unchanged at steps 0. -/
theorem claim_c9_zero_skips_validation :
    (∀ (vocab : Vocab) (tokens : List Int),
      (∃ t ∈ tokens, ∃ v, token_to_info vocab t = some (TokenInfo.pitch v) ∧
        (v < min_pitch ∨ v > max_pitch)) →
      transpose_tokens vocab tokens 0 = some tokens) ∧
    token_to_info oorVocab 0 = some (TokenInfo.pitch 200) ∧
    (200 : Int) > max_pitch ∧
    (∀ s : Int, s ≠ 0 → transpose_tokens oorVocab [0] s = none) ∧
    transpose_tokens oorVocab [0] 0 = some [0] := by
  refine ⟨fun vocab tokens _ => by unfold transpose_tokens; rw [if_pos rfl],
    by decide, by decide, ?_, by decide⟩
  intro s hs
  have hnone : transpose_token oorVocab s 0 = none := by
    have h200 : token_to_info oorVocab 0 = some (TokenInfo.pitch 200) := by decide
    unfold transpose_token
    rw [h200]
    show (if (200 : Int) + s < min_pitch ∨ (200 : Int) + s > max_pitch then none
      else match vocab_get oorVocab ("Pitch_" ++ toString ((200 : Int) + s)) with
        | some id => some id
        | none => none) = none
    by_cases hrange : (200 : Int) + s < min_pitch ∨ (200 : Int) + s > max_pitch
    · simp only [hrange, if_true]
    · rw [if_neg hrange]
      have hlo : (21 : Int) ≤ 200 + s := by
        simp only [min_pitch, max_pitch] at hrange; omega
      have hhi : (200 : Int) + s ≤ 109 := by
        simp only [min_pitch, max_pitch] at hrange; omega
      cases hlook : vocab_get oorVocab ("Pitch_" ++ toString (200 + s)) with
      | none => rfl
      | some id =>
        exfalso
        have hinfo : token_to_info oorVocab id =
            some (TokenInfo.pitch (200 + s)) := by
          rw [token_info_of_get (by decide) hlook]
          exact classify_pitch_str (200 + s) hlo hhi
        obtain ⟨p, hpm, _, hpc⟩ := token_to_info_eq_some hinfo
        have hp : p = ("Pitch_200", 0) := List.mem_singleton.mp hpm
        rw [hp] at hpc
        have hcl : classify "Pitch_200" = some (TokenInfo.pitch 200) := by decide
        rw [hcl] at hpc
        have : (200 : Int) = 200 + s := by
          simpa using hpc
        omega
  unfold transpose_tokens
  rw [if_neg hs]
  unfold transposeList
  rw [hnone]

lemma transposeList_length {vocab : Vocab} {steps : Int} :
    ∀ {l r : List Int}, transposeList vocab steps l = some r →
      r.length = l.length := by
  intro l
  induction l with
  | nil =>
    intro r h
    rw [← Option.some.inj h]
  | cons t ts ih =>
    intro r h
    unfold transposeList at h
    cases ht : transpose_token vocab steps t with
    | none => rw [ht] at h; cases h
    | some t' =>
      rw [ht] at h
      cases hts : transposeList vocab steps ts with
      | none => rw [hts] at h; cases h
      | some ts' =>
        rw [hts] at h
        rw [← Option.some.inj h]
        simp [ih hts]

lemma transposeList_frame {vocab : Vocab} {steps : Int} :
    ∀ {l r : List Int}, transposeList vocab steps l = some r →
      ∀ i (hi : i < l.length) (hr : i < r.length),
        (∀ v : Int,
          token_to_info vocab (l.get ⟨i, hi⟩) ≠ some (TokenInfo.pitch v)) →
        r.get ⟨i, hr⟩ = l.get ⟨i, hi⟩ := by
  intro l
  induction l with
  | nil =>
    intro r _ i hi
    exact absurd hi (Nat.not_lt_zero i)
  | cons t ts ih =>
    intro r h i hi hr hnp
    unfold transposeList at h
    cases ht : transpose_token vocab steps t with
    | none => rw [ht] at h; cases h
    | some t' =>
      rw [ht] at h
      cases hts : transposeList vocab steps ts with
      | none => rw [hts] at h; cases h
      | some ts' =>
        rw [hts] at h
        have hre : r = t' :: ts' := (Option.some.inj h).symm
        subst hre
        cases i with
        | zero =>
          show t' = t
          unfold transpose_token at ht
          cases hinfo : token_to_info vocab t with
          | none => rw [hinfo] at ht; exact (Option.some.inj ht).symm
          | some info =>
            cases info with
            | pitch v => exact absurd hinfo (hnp v)
            | drumPitch w => rw [hinfo] at ht; exact (Option.some.inj ht).symm
            | chord c => rw [hinfo] at ht; exact (Option.some.inj ht).symm
            | other => rw [hinfo] at ht; exact (Option.some.inj ht).symm
        | succ n =>
          exact ih hts n (Nat.lt_of_succ_lt_succ hi)
            (Nat.lt_of_succ_lt_succ hr) hnp

/-- Claim C5: frame — a successful transposition preserves length, and every
token not classified as pitch (drum pitch, chord, other, or an id absent from
the classification table) comes through unchanged at its position. -/
theorem claim_c5_frame (vocab : Vocab) (tokens : List Int) (steps : Int)
    (r : List Int) (h : transpose_tokens vocab tokens steps = some r) :
    r.length = tokens.length ∧
      ∀ i (hi : i < tokens.length) (hr : i < r.length),
        (∀ v : Int,
          token_to_info vocab (tokens.get ⟨i, hi⟩) ≠ some (TokenInfo.pitch v)) →
        r.get ⟨i, hr⟩ = tokens.get ⟨i, hi⟩ := by
  unfold transpose_tokens at h
  by_cases hs : steps = 0
  · rw [if_pos hs] at h
    have hre : r = tokens := (Option.some.inj h).symm
    subst hre
    exact ⟨rfl, fun i hi hr _ => rfl⟩
  · rw [if_neg hs] at h
    exact ⟨transposeList_length h, transposeList_frame h⟩

/-- Witness for C5: a bar, a pitch and a chord token transposed by one
semitone; only the pitch token changes and the length is preserved. -/
theorem claim_c5_concrete :
    transpose_tokens demoVocab [9, 2, 8] 1 = some [9, 3, 8] ∧
    ([9, 3, 8] : List Int).length = ([9, 2, 8] : List Int).length :=
  ⟨by decide, (claim_c5_frame demoVocab [9, 2, 8] 1 [9, 3, 8] (by decide)).1⟩

lemma foldl_min_mem : ∀ (l : List Int) (p : Int), l.foldl min p ∈ p :: l := by
  intro l
  induction l with
  | nil => intro p; exact List.mem_singleton.mpr rfl
  | cons a l ih =>
    intro p
    rw [List.foldl_cons]
    rcases List.mem_cons.mp (ih (min p a)) with h | h
    · rcases min_choice p a with hm | hm
      · rw [h, hm]; exact List.mem_cons_self _ _
      · rw [h, hm]; exact List.mem_cons_of_mem _ (List.mem_cons_self _ _)
    · exact List.mem_cons_of_mem _ (List.mem_cons_of_mem _ h)

lemma foldl_min_le : ∀ (l : List Int) (p x : Int), x ∈ p :: l →
    l.foldl min p ≤ x := by
  intro l
  induction l with
  | nil =>
    intro p x hx
    rw [List.mem_singleton.mp hx]
    exact le_refl _
  | cons a l ih =>
    intro p x hx
    rw [List.foldl_cons]
    rcases List.mem_cons.mp hx with h | hx'
    · rw [h]
      exact le_trans (ih (min p a) _ (List.mem_cons_self _ _)) (min_le_left _ _)
    · rcases List.mem_cons.mp hx' with h | hx''
      · rw [h]
        exact le_trans (ih (min p a) _ (List.mem_cons_self _ _)) (min_le_right _ _)
      · exact ih (min p a) x (List.mem_cons_of_mem _ hx'')

lemma foldl_max_mem : ∀ (l : List Int) (p : Int), l.foldl max p ∈ p :: l := by
  intro l
  induction l with
  | nil => intro p; exact List.mem_singleton.mpr rfl
  | cons a l ih =>
    intro p
    rw [List.foldl_cons]
    rcases List.mem_cons.mp (ih (max p a)) with h | h
    · rcases max_choice p a with hm | hm
      · rw [h, hm]; exact List.mem_cons_self _ _
      · rw [h, hm]; exact List.mem_cons_of_mem _ (List.mem_cons_self _ _)
    · exact List.mem_cons_of_mem _ (List.mem_cons_of_mem _ h)

lemma foldl_max_ge : ∀ (l : List Int) (p x : Int), x ∈ p :: l →
    x ≤ l.foldl max p := by
  intro l
  induction l with
  | nil =>
    intro p x hx
    rw [List.mem_singleton.mp hx]
    exact le_refl _
  | cons a l ih =>
    intro p x hx
    rw [List.foldl_cons]
    rcases List.mem_cons.mp hx with h | hx'
    · rw [h]
      exact le_trans (le_max_left _ _) (ih (max p a) _ (List.mem_cons_self _ _))
    · rcases List.mem_cons.mp hx' with h | hx''
      · rw [h]
        exact le_trans (le_max_right _ _) (ih (max p a) _ (List.mem_cons_self _ _))
      · exact ih (max p a) x (List.mem_cons_of_mem _ hx'')

lemma collect_mem_of_info {vocab : Vocab} {tokens : List Int} {t v : Int}
    (ht : t ∈ tokens)
    (hinfo : token_to_info vocab t = some (TokenInfo.pitch v)) :
    v ∈ collect_pitches vocab tokens := by
  unfold collect_pitches
  rw [List.mem_filterMap]
  exact ⟨t, ht, by rw [hinfo]⟩

/-- Claim C2: `find_optimal_transpose` returns 0 with no pitch tokens, and
otherwise centres `[current_min, current_max]` towards 65 with the low-bound
clamp checked first. -/
theorem claim_c2_optimal_formula (vocab : Vocab) (tokens : List Int) :
    (collect_pitches vocab tokens = [] →
      find_optimal_transpose vocab tokens = 0) ∧
    (∀ m M : Int, m ∈ collect_pitches vocab tokens →
      (∀ x ∈ collect_pitches vocab tokens, m ≤ x) →
      M ∈ collect_pitches vocab tokens →
      (∀ x ∈ collect_pitches vocab tokens, x ≤ M) →
      find_optimal_transpose vocab tokens =
        if m + (65 - Int.fdiv (m + M) 2) < 21 then 21 - m
        else if M + (65 - Int.fdiv (m + M) 2) > 109 then 109 - M
        else 65 - Int.fdiv (m + M) 2) := by
  constructor
  · intro h
    unfold find_optimal_transpose
    rw [h]
  · intro m M hm hmle hM hMge
    unfold find_optimal_transpose
    cases hps : collect_pitches vocab tokens with
    | nil => rw [hps] at hm; cases hm
    | cons p ps =>
      rw [hps] at hm hmle hM hMge
      have h1 : ps.foldl min p = m :=
        le_antisymm (foldl_min_le ps p m hm) (hmle _ (foldl_min_mem ps p))
      have h2 : ps.foldl max p = M :=
        le_antisymm (hMge _ (foldl_max_mem ps p)) (foldl_max_ge ps p M hM)
      have hmid : mid_pitch = (65 : Int) := by decide
      simp only [h1, h2, hmid, min_pitch, max_pitch]

/-- Witness for C2: a sequence with no pitch tokens maps to 0, and a single
`Pitch_60` maps to 65 − 60 = 5. -/
theorem claim_c2_concrete :
    find_optimal_transpose demoVocab [9] = 0 ∧
    find_optimal_transpose demoVocab [2] = 5 := by
  constructor
  · exact (claim_c2_optimal_formula demoVocab [9]).1 (by decide)
  · have h := (claim_c2_optimal_formula demoVocab [2]).2 60 60
      (by decide) (by decide) (by decide) (by decide)
    rw [h]
    decide

/-- A vocabulary whose pitch range spans more than the allowed
`max_pitch - min_pitch` semitones. -/
def gapVocab : Vocab := [("Pitch_0", 0), ("Pitch_100", 1)]

/-- Counterexample to claim C3: on the sequence `[Pitch_0, Pitch_100]` the
offset returned by `find_optimal_transpose` is 21, which pushes the pitch
token of value 100 to 121 > `max_pitch`, and `transpose_tokens` at that
offset fails. -/
theorem claim_c3_counterexample :
    (1 : Int) ∈ [(0 : Int), 1] ∧
    token_to_info gapVocab 1 = some (TokenInfo.pitch 100) ∧
    find_optimal_transpose gapVocab [0, 1] = 21 ∧
    ¬((100 : Int) + find_optimal_transpose gapVocab [0, 1] ≤ max_pitch) ∧
    transpose_tokens gapVocab [0, 1]
      (find_optimal_transpose gapVocab [0, 1]) = none := by decide

lemma clamp_bounds {m M v : Int} (hmv : m ≤ v) (hvM : v ≤ M)
    (h1 : v - m ≤ 88) (h2 : M - v ≤ 88) :
    21 ≤ v + (if m + (65 - Int.fdiv (m + M) 2) < 21 then 21 - m
        else if M + (65 - Int.fdiv (m + M) 2) > 109 then 109 - M
        else 65 - Int.fdiv (m + M) 2) ∧
      v + (if m + (65 - Int.fdiv (m + M) 2) < 21 then 21 - m
        else if M + (65 - Int.fdiv (m + M) 2) > 109 then 109 - M
        else 65 - Int.fdiv (m + M) 2) ≤ 109 := by
  generalize Int.fdiv (m + M) 2 = q
  by_cases hc1 : m + (65 - q) < 21
  · simp only [if_pos hc1]; omega
  · simp only [if_neg hc1]
    by_cases hc2 : M + (65 - q) > 109
    · simp only [if_pos hc2]; omega
    · simp only [if_neg hc2]; omega

lemma optimal_keeps_range {vocab : Vocab} {tokens : List Int}
    (hspan : ∀ a ∈ collect_pitches vocab tokens,
      ∀ b ∈ collect_pitches vocab tokens, a - b ≤ max_pitch - min_pitch) :
    ∀ v ∈ collect_pitches vocab tokens,
      min_pitch ≤ v + find_optimal_transpose vocab tokens ∧
      v + find_optimal_transpose vocab tokens ≤ max_pitch := by
  intro v hv
  unfold find_optimal_transpose
  cases hps : collect_pitches vocab tokens with
  | nil => rw [hps] at hv; cases hv
  | cons p ps =>
    rw [hps] at hv hspan
    have hmm := foldl_min_mem ps p
    have hMm := foldl_max_mem ps p
    have hmv : ps.foldl min p ≤ v := foldl_min_le ps p v hv
    have hMv : v ≤ ps.foldl max p := foldl_max_ge ps p v hv
    have hs1 : v - ps.foldl min p ≤ 88 := by
      have := hspan v hv _ hmm
      simp only [min_pitch, max_pitch] at this
      omega
    have hs2 : ps.foldl max p - v ≤ 88 := by
      have := hspan _ hMm v hv
      simp only [min_pitch, max_pitch] at this
      omega
    have hmid : mid_pitch = (65 : Int) := by decide
    simp only [hmid, min_pitch, max_pitch]
    exact clamp_bounds hmv hMv hs1 hs2

lemma transposeList_isSome {vocab : Vocab} {steps : Int} :
    ∀ {l : List Int}, (∀ t ∈ l, (transpose_token vocab steps t).isSome) →
      (transposeList vocab steps l).isSome := by
  intro l
  induction l with
  | nil => intro _; rfl
  | cons t ts ih =>
    intro h
    unfold transposeList
    cases ht : transpose_token vocab steps t with
    | none =>
      have := h t (List.mem_cons_self t ts)
      rw [ht] at this
      cases this
    | some t' =>
      have htail := ih (fun x hx => h x (List.mem_cons_of_mem t hx))
      cases hts : transposeList vocab steps ts with
      | none => rw [hts] at htail; cases htail
      | some ts' => rfl

lemma transpose_token_isSome_at_optimal {vocab : Vocab} {tokens : List Int}
    (hspan : ∀ a ∈ collect_pitches vocab tokens,
      ∀ b ∈ collect_pitches vocab tokens, a - b ≤ max_pitch - min_pitch)
    (hvoc : ∀ v ∈ collect_pitches vocab tokens,
      (vocab_get vocab
        ("Pitch_" ++ toString (v + find_optimal_transpose vocab tokens))).isSome)
    {t : Int} (ht : t ∈ tokens) :
    (transpose_token vocab (find_optimal_transpose vocab tokens) t).isSome := by
  cases hinfo : token_to_info vocab t with
  | none => unfold transpose_token; rw [hinfo]; rfl
  | some info =>
    cases info with
    | drumPitch w => unfold transpose_token; rw [hinfo]; rfl
    | chord c => unfold transpose_token; rw [hinfo]; rfl
    | other => unfold transpose_token; rw [hinfo]; rfl
    | pitch v =>
      have hvmem : v ∈ collect_pitches vocab tokens := collect_mem_of_info ht hinfo
      obtain ⟨hlo, hhi⟩ := optimal_keeps_range hspan v hvmem
      have hrange : ¬(v + find_optimal_transpose vocab tokens < min_pitch ∨
          v + find_optimal_transpose vocab tokens > max_pitch) := by
        push_neg
        exact ⟨not_lt.mp (not_lt.mpr hlo), not_lt.mp (not_lt.mpr hhi)⟩
      unfold transpose_token
      rw [hinfo]
      show (if v + find_optimal_transpose vocab tokens < min_pitch ∨
          v + find_optimal_transpose vocab tokens > max_pitch then none
        else match vocab_get vocab
            ("Pitch_" ++ toString (v + find_optimal_transpose vocab tokens)) with
          | some id => some id
          | none => none).isSome
      rw [if_neg hrange]
      have hl := hvoc v hvmem
      cases hlook : vocab_get vocab
          ("Pitch_" ++ toString (v + find_optimal_transpose vocab tokens)) with
      | none => rw [hlook] at hl; cases hl
      | some id => rfl

/-- Claim C3, amended: provided the sequence's collected pitch values span at
most `max_pitch - min_pitch` semitones and the vocabulary contains the target
string `Pitch_{v + offset}` for each collected pitch value `v`, the offset
returned by `find_optimal_transpose` keeps every pitch within
`[min_pitch, max_pitch]` and `transpose_tokens` at that offset succeeds. -/
theorem claim_c3_amended_safety (vocab : Vocab) (tokens : List Int)
    (hspan : ∀ a ∈ collect_pitches vocab tokens,
      ∀ b ∈ collect_pitches vocab tokens, a - b ≤ max_pitch - min_pitch)
    (hvoc : ∀ v ∈ collect_pitches vocab tokens,
      (vocab_get vocab
        ("Pitch_" ++ toString (v + find_optimal_transpose vocab tokens))).isSome) :
    (∀ v ∈ collect_pitches vocab tokens,
      min_pitch ≤ v + find_optimal_transpose vocab tokens ∧
      v + find_optimal_transpose vocab tokens ≤ max_pitch) ∧
    (transpose_tokens vocab tokens (find_optimal_transpose vocab tokens)).isSome := by
  refine ⟨optimal_keeps_range hspan, ?_⟩
  unfold transpose_tokens
  by_cases h0 : find_optimal_transpose vocab tokens = 0
  · rw [if_pos h0]; rfl
  · rw [if_neg h0]
    exact transposeList_isSome (fun t ht =>
      transpose_token_isSome_at_optimal hspan hvoc ht)

/-- Witness for C3 (amended): the single-pitch sequence `[Pitch_60]` has span
0, its target `Pitch_65` is in the vocabulary, and the optimal offset indeed
transposes it successfully. -/
theorem claim_c3_amended_concrete :
    (∀ a ∈ collect_pitches demoVocab [2], ∀ b ∈ collect_pitches demoVocab [2],
      a - b ≤ max_pitch - min_pitch) ∧
    (∀ v ∈ collect_pitches demoVocab [2],
      (vocab_get demoVocab
        ("Pitch_" ++ toString (v + find_optimal_transpose demoVocab [2]))).isSome) ∧
    (transpose_tokens demoVocab [2]
      (find_optimal_transpose demoVocab [2])).isSome :=
  ⟨by decide, by decide,
    (claim_c3_amended_safety demoVocab [2] (by decide) (by decide)).2⟩

lemma filterMap_map_sub {α β : Type _} (f : α → Option β) (g : β → α)
    (hfg : ∀ a b, f a = some b → g b = a) :
    ∀ l : List α, ((l.filterMap f).map g).Sublist l := by
  intro l
  induction l with
  | nil => simp
  | cons a l ih =>
    rw [List.filterMap_cons]
    cases hfa : f a with
    | none => exact List.Sublist.cons a ih
    | some b =>
      rw [List.map_cons, hfg a b hfa]
      exact List.Sublist.cons₂ a ih

lemma augment_step_inv (vocab : Vocab) (tokens : List Int) (d : Int)
    {e : Int × List Int}
    (hde : (match transpose_tokens vocab tokens
        (find_optimal_transpose vocab tokens + d) with
      | some r => some (find_optimal_transpose vocab tokens + d, r)
      | none => none) = some e) :
    e.1 - find_optimal_transpose vocab tokens = d := by
  cases htr : transpose_tokens vocab tokens
      (find_optimal_transpose vocab tokens + d) with
  | none => rw [htr] at hde; cases hde
  | some r =>
    rw [htr] at hde
    rw [← Option.some.inj hde]
    exact add_sub_cancel_left _ _

lemma augment_map_sublist (vocab : Vocab) (lo hi : Int) (tokens : List Int) :
    ((augment_sequence vocab lo hi tokens).map
      (fun e => e.1 - find_optimal_transpose vocab tokens)).Sublist
      (transpose_values lo hi) := by
  simp only [augment_sequence]
  exact filterMap_map_sub _ _ (fun d e => augment_step_inv vocab tokens d) _

lemma transpose_values_pairwise (lo hi : Int) :
    (transpose_values lo hi).Pairwise (fun a b => a < b) := by
  unfold transpose_values
  rw [List.pairwise_map]
  exact List.Pairwise.imp
    (fun hab => add_lt_add_left (Int.ofNat_lt.mpr hab) lo)
    (List.pairwise_lt_range _)

lemma augment_fst_pairwise (vocab : Vocab) (lo hi : Int) (tokens : List Int) :
    ((augment_sequence vocab lo hi tokens).map
      (fun e => e.1)).Pairwise (fun a b => a < b) := by
  have hp := List.Pairwise.sublist (augment_map_sublist vocab lo hi tokens)
    (transpose_values_pairwise lo hi)
  rw [List.pairwise_map] at hp ⊢
  exact hp.imp (fun h => by omega)

lemma augment_mem_inv (vocab : Vocab) (lo hi : Int) (tokens : List Int)
    {e : Int × List Int} (he : e ∈ augment_sequence vocab lo hi tokens) :
    transpose_tokens vocab tokens e.1 = some e.2 ∧
      e.1 - find_optimal_transpose vocab tokens ∈ transpose_values lo hi := by
  simp only [augment_sequence] at he
  rw [List.mem_filterMap] at he
  obtain ⟨d, hd, hde⟩ := he
  cases htr : transpose_tokens vocab tokens
      (find_optimal_transpose vocab tokens + d) with
  | none => rw [htr] at hde; cases hde
  | some r =>
    rw [htr] at hde
    have he2 : e = (find_optimal_transpose vocab tokens + d, r) :=
      (Option.some.inj hde).symm
    subst he2
    refine ⟨htr, ?_⟩
    show find_optimal_transpose vocab tokens + d -
      find_optimal_transpose vocab tokens ∈ transpose_values lo hi
    rw [add_sub_cancel_left]
    exact hd

lemma augment_complete (vocab : Vocab) (lo hi : Int) (tokens : List Int)
    {d : Int} (hd : d ∈ transpose_values lo hi) {r : List Int}
    (htr : transpose_tokens vocab tokens
      (find_optimal_transpose vocab tokens + d) = some r) :
    (find_optimal_transpose vocab tokens + d, r) ∈
      augment_sequence vocab lo hi tokens := by
  simp only [augment_sequence]
  rw [List.mem_filterMap]
  exact ⟨d, hd, by rw [htr]⟩

/-- Claim C6: `augment_sequence` computes the optimal offset once, tries
`optimal + d` for each configured `d` in order, keeps successes and skips
failures; the result preserves the configured order (witnessed by the base
offsets forming a sublist of the configured set), has no duplicate offset, at
most `len(transpose_values)` entries, every entry carries a successful
transposition with base offset `actual − optimal` in the configured set, and
every successful configured offset appears. -/
theorem claim_c6_augment_shape (vocab : Vocab) (lo hi : Int)
    (tokens : List Int) :
    ((augment_sequence vocab lo hi tokens).map
        (fun e => e.1 - find_optimal_transpose vocab tokens)).Sublist
      (transpose_values lo hi) ∧
    ((augment_sequence vocab lo hi tokens).map (fun e => e.1)).Nodup ∧
    (augment_sequence vocab lo hi tokens).length ≤
      (transpose_values lo hi).length ∧
    (∀ e ∈ augment_sequence vocab lo hi tokens,
      transpose_tokens vocab tokens e.1 = some e.2 ∧
        e.1 - find_optimal_transpose vocab tokens ∈ transpose_values lo hi) ∧
    (∀ d ∈ transpose_values lo hi, ∀ r : List Int,
      transpose_tokens vocab tokens
        (find_optimal_transpose vocab tokens + d) = some r →
      (find_optimal_transpose vocab tokens + d, r) ∈
        augment_sequence vocab lo hi tokens) := by
  refine ⟨augment_map_sublist vocab lo hi tokens, ?_, ?_,
    fun e he => augment_mem_inv vocab lo hi tokens he,
    fun d hd r htr => augment_complete vocab lo hi tokens hd htr⟩
  · exact List.Pairwise.imp (fun h => ne_of_lt h)
      (augment_fst_pairwise vocab lo hi tokens)
  · have h := (augment_map_sublist vocab lo hi tokens).length_le
    rw [List.length_map] at h
    exact h

/-- Claim C10 (implicit): for `lo ≤ hi` the configured offset list is exactly
the consecutive integers `lo, lo+1, …, hi` — length `hi − lo + 1`, `i`-th
element `lo + i`, strictly increasing — and consequently the actual offsets
of any augmentation result are strictly increasing. -/
theorem claim_c10_offsets_consecutive (lo hi : Int) (hlohi : lo ≤ hi) :
    ((transpose_values lo hi).length : Int) = hi - lo + 1 ∧
    (∀ i (h : i < (transpose_values lo hi).length),
      (transpose_values lo hi).get ⟨i, h⟩ = lo + i) ∧
    (transpose_values lo hi).Pairwise (fun a b => a < b) ∧
    ∀ (vocab : Vocab) (tokens : List Int),
      ((augment_sequence vocab lo hi tokens).map
        (fun e => e.1)).Pairwise (fun a b => a < b) := by
  refine ⟨?_, ?_, transpose_values_pairwise lo hi,
    fun vocab tokens => augment_fst_pairwise vocab lo hi tokens⟩
  · unfold transpose_values
    rw [List.length_map, List.length_range, Int.toNat_of_nonneg (by omega)]
    ring
  · intro i h
    simp only [transpose_values, List.get_eq_getElem, List.getElem_map,
      List.getElem_range]
    rfl

/-- Witness for C10: the default configuration `(-5, 6)` yields
6 − (−5) + 1 = 12 offsets. -/
theorem claim_c10_concrete :
    (-5 : Int) ≤ 6 ∧ ((transpose_values (-5) 6).length : Int) = 6 - (-5) + 1 :=
  ⟨by decide, (claim_c10_offsets_consecutive (-5) 6 (by decide)).1⟩

lemma startswith_exclusive {s p q : String} {c d : Char} {cp cq : List Char}
    (hp : p.data = c :: cp) (hq : q.data = d :: cq) (hne : d ≠ c)
    (h : startswith s p = true) : startswith s q = false := by
  unfold startswith at h ⊢
  rw [hp] at h
  rw [hq]
  cases hs : s.data with
  | nil =>
    rw [hs] at h
    simp [List.isPrefixOf] at h
  | cons e es =>
    rw [hs] at h
    simp only [List.isPrefixOf, Bool.and_eq_true, beq_iff_eq] at h
    have hde : (d == e) = false := by
      rw [beq_eq_false_iff_ne]
      rw [← h.1]
      exact hne
    simp only [List.isPrefixOf, hde, Bool.false_and]

/-- Claim C7: the vocabulary classifier assigns category pitch with the
parsed numeric suffix to strings starting with `Pitch_` but not
`PitchDrum_`; drum_pitch with the parsed suffix to strings starting with
`PitchDrum_`; chord with the segment after `Chord_` (up to the next
underscore) to strings starting with `Chord_`; and other, with no value, to
all remaining strings. -/
theorem claim_c7_classifier (s : String) :
    (∀ n : Int, startswith s "Pitch_" = true →
      startswith s "PitchDrum_" = false →
      ((splitOnUnderscore s).get? 1).bind parseInt = some n →
      classify s = some (TokenInfo.pitch n)) ∧
    (∀ n : Int, startswith s "PitchDrum_" = true →
      ((splitOnUnderscore s).get? 1).bind parseInt = some n →
      classify s = some (TokenInfo.drumPitch n)) ∧
    (∀ q : String, startswith s "Chord_" = true →
      (splitOnUnderscore s).get? 1 = some q →
      classify s = some (TokenInfo.chord q)) ∧
    (startswith s "Pitch_" = false → startswith s "PitchDrum_" = false →
      startswith s "Chord_" = false → classify s = some TokenInfo.other) := by
  refine ⟨?_, ?_, ?_, ?_⟩
  · intro n h1 h2 hp
    obtain ⟨seg, hseg, hparse⟩ := Option.bind_eq_some.mp hp
    rw [List.get?_eq_getElem?] at hseg
    simp [classify, h1, h2, hseg, hparse]
  · intro n h1 hp
    obtain ⟨seg, hseg, hparse⟩ := Option.bind_eq_some.mp hp
    rw [List.get?_eq_getElem?] at hseg
    simp [classify, h1, hseg, hparse]
  · intro q h1 hseg
    have hpi : startswith s "Pitch_" = false :=
      startswith_exclusive
        (show ("Chord_" : String).data = 'C' :: ['h', 'o', 'r', 'd', '_'] from rfl)
        (show ("Pitch_" : String).data = 'P' :: ['i', 't', 'c', 'h', '_'] from rfl)
        (by decide) h1
    have hpd : startswith s "PitchDrum_" = false :=
      startswith_exclusive
        (show ("Chord_" : String).data = 'C' :: ['h', 'o', 'r', 'd', '_'] from rfl)
        (show ("PitchDrum_" : String).data =
          'P' :: ['i', 't', 'c', 'h', 'D', 'r', 'u', 'm', '_'] from rfl)
        (by decide) h1
    rw [List.get?_eq_getElem?] at hseg
    simp [classify, hpi, hpd, h1, hseg]
  · intro h1 h2 h3
    simp [classify, h1, h2, h3]

/-- Witness for C7: one token string of each category. -/
theorem claim_c7_concrete :
    classify "Pitch_60" = some (TokenInfo.pitch 60) ∧
    classify "PitchDrum_36" = some (TokenInfo.drumPitch 36) ∧
    classify "Chord_maj" = some (TokenInfo.chord "maj") ∧
    classify "Bar_None" = some TokenInfo.other :=
  ⟨(claim_c7_classifier "Pitch_60").1 60 (by decide) (by decide) (by decide),
   (claim_c7_classifier "PitchDrum_36").2.1 36 (by decide) (by decide),
   (claim_c7_classifier "Chord_maj").2.2.1 "maj" (by decide) (by decide),
   (claim_c7_classifier "Bar_None").2.2.2 (by decide) (by decide) (by decide)⟩
